import Mathlib

/-!
Verification of the pyhm MCMC core.

This file gives a shallow embedding of the pyhm repository's core code
(BuiltinStepMethods.py and Utils.py) and proves theorems about it.

Modelling conventions:
- Python floats are modelled as real numbers.
- Calls to the random number generator (the proposal distribution and
  np.random.random) are modelled by explicit oracle arguments giving the
  value returned by each call.
- The dictionary of free variables is modelled as a list of values indexed
  by position (one entry per free-variable key, in the dictionary's
  iteration order, which Python 2 leaves unspecified).
- A raised exception is modelled by the error branch of an Except value,
  or by the none branch of an Option value.
-/

namespace MetropolisHastings

/-- Acceptance decision of the Metropolis-Hastings step method
(BuiltinStepMethods.py, MetropolisHastings.decide, lines 40-54).
The draw z of np.random.random() is passed explicitly. -/
noncomputable def decide (current_logp new_logp z : ℝ) : Bool :=
  let beta := new_logp - current_logp
  if beta > 0 then
    true
  else
    let alpha := Real.exp beta
    if z ≤ alpha then true else false

end MetropolisHastings

/-- Required number of consecutive successful tune intervals
(BuiltinStepMethods.py line 93). -/
def nconsecutive : ℕ := 5

/-- Error message raised when a tuning phase reaches its iteration limit
(BuiltinStepMethods.py lines 115-117 and 220-221). -/
def tuneErrorMessage (m : ℕ) : String :=
  "Aborting tuning - exceeded " ++ toString m ++ " steps" ++
    "\n...consider reducing tune_interval"

/-- Number of accepted steps recorded in a tuning interval chain: the chain
array holds the 0/1 acceptance flags and np.sum adds them up
(BuiltinStepMethods.py lines 156 and 261). -/
def countAccepted (l : List Bool) : ℕ :=
  (l.map (fun b => if b then 1 else 0)).sum

/-- Phase A step-size adjustment table applied at the end of each tuning
interval (BuiltinStepMethods.py lines 158-181).  The Python code is an
if/elif chain with no final else, so an acceptance fraction matched by no
branch leaves the step size unchanged. -/
noncomputable def adjustStepSizeA (stepSize accfrac : ℝ) : ℝ :=
  if accfrac ≤ 0.01 then stepSize / 5.0
  else if 0.01 < accfrac ∧ accfrac ≤ 0.05 then stepSize / 2.0
  else if 0.05 < accfrac ∧ accfrac ≤ 0.10 then stepSize / 1.5
  else if 0.10 < accfrac ∧ accfrac ≤ 0.15 then stepSize / 1.2
  else if 0.15 < accfrac ∧ accfrac < 0.2 then stepSize / 1.1
  else if 0.20 < accfrac ∧ accfrac < 0.25 then stepSize / 1.01
  else if 0.35 < accfrac ∧ accfrac ≤ 0.40 then stepSize * 1.01
  else if 0.40 < accfrac ∧ accfrac ≤ 0.45 then stepSize * 1.1
  else if 0.45 < accfrac ∧ accfrac ≤ 0.50 then stepSize * 1.2
  else if 0.50 < accfrac ∧ accfrac ≤ 0.55 then stepSize * 1.5
  else if 0.55 < accfrac ∧ accfrac ≤ 0.60 then stepSize * 2.0
  else if 0.60 < accfrac then stepSize * 5.0
  else stepSize

/-- State carried through one parameter's Phase A tuning loop in pre_tune
(BuiltinStepMethods.py lines 94-200).  Lists are indexed by the position of
each free-variable key; the fields mirror the Python locals:
i, nsuccess, self.step_sizes, the in-place variable values, current_values,
the per-interval arrays tuning_chains with key_j for accepted, values and
logp, and the local accfrac_j. -/
structure TuneAState where
  i : ℕ
  nsuccess : ℕ
  stepSizes : List ℝ
  values : List ℝ
  currentValues : List ℝ
  acceptedChain : List Bool
  valuesChain : List ℝ
  logpChain : List ℝ
  accfrac : ℝ

/-- One pass of the else branch of the Phase A while loop for the parameter
at index j (BuiltinStepMethods.py lines 120-189): compute k = i % n,
advance i, evaluate the current log probability, reset all values to their
original values at the start of an interval, perturb parameter j only,
decide acceptance with draw zs i, restore on rejection, record the chain
entries, and at the end of an interval (k = n-1) apply the step-size table
and update the consecutive-success counter.  The oracle prop gives the
value returned by the proposal distribution at iteration i for a given
sigma, and zs gives the np.random.random draw used by decide. -/
noncomputable def tuneAIter (n j : ℕ) (logp : List ℝ → ℝ) (orig : List ℝ)
    (prop : ℕ → ℝ → ℝ) (zs : ℕ → ℝ) (s : TuneAState) : TuneAState :=
  let k := s.i % n
  let current_logp := logp s.values
  let values0 := if k = 0 then orig else s.values
  let step_size_j := s.stepSizes.getD j 0
  let values1 := values0.set j (values0.getD j 0 + prop s.i step_size_j)
  let new_logp := logp values1
  let acc := MetropolisHastings.decide current_logp new_logp (zs s.i)
  let acceptedChain1 := s.acceptedChain.set k acc
  let values2 := if acc then values1 else values1.set j (s.currentValues.getD j 0)
  let currentValues1 :=
    if acc then s.currentValues.set j (values1.getD j 0) else s.currentValues
  let valuesChain1 := s.valuesChain.set k (currentValues1.getD j 0)
  let logpChain1 := s.logpChain.set k (logp values2)
  let accfrac1 :=
    if k = n - 1 then (countAccepted acceptedChain1 : ℝ) / n else s.accfrac
  let stepSizes1 :=
    if k = n - 1 then s.stepSizes.set j (adjustStepSizeA step_size_j accfrac1)
    else s.stepSizes
  let nsuccess1 :=
    if k = n - 1 then
      if 0.2 ≤ accfrac1 ∧ accfrac1 ≤ 0.40 then s.nsuccess + 1 else 0
    else s.nsuccess
  { i := s.i + 1, nsuccess := nsuccess1, stepSizes := stepSizes1,
    values := values2, currentValues := currentValues1,
    acceptedChain := acceptedChain1, valuesChain := valuesChain1,
    logpChain := logpChain1, accfrac := accfrac1 }

/-- The Phase A while loop for the parameter at index j
(BuiltinStepMethods.py lines 103-122): while i < m+1, break once nsuccess
reaches nconsecutive (multiplying the step size by the extra 0.3 factor),
raise the iteration-limit error when i = m, and otherwise run one tuning
iteration.  The fuel argument bounds the recursion; any fuel strictly
larger than m - i reproduces the loop, and the out-of-fuel branch is
unreachable in that regime. -/
noncomputable def tuneALoop (m n j : ℕ) (logp : List ℝ → ℝ) (orig : List ℝ)
    (prop : ℕ → ℝ → ℝ) (zs : ℕ → ℝ) :
    ℕ → TuneAState → Except String TuneAState
  | 0, _ => Except.error (tuneErrorMessage m)
  | fuel + 1, s =>
    if s.i < m + 1 then
      if s.nsuccess ≥ nconsecutive then
        Except.ok { s with
          stepSizes := s.stepSizes.set j ((s.stepSizes.getD j 0) * 0.3) }
      else if s.i = m then
        Except.error (tuneErrorMessage m)
      else
        tuneALoop m n j logp orig prop zs fuel (tuneAIter n j logp orig prop zs s)
    else
      Except.ok s

/-- Phase B rescale-factor table applied at the end of a non-successful
joint tuning interval (BuiltinStepMethods.py lines 268-287).  An if/elif
chain with no final else: an acceptance fraction matched by no branch
leaves the previous rescale factor in place. -/
noncomputable def updateRescaleFactor (rescale accfrac : ℝ) : ℝ :=
  if accfrac ≤ 0.01 then 1 / 2.0
  else if 0.01 < accfrac ∧ accfrac ≤ 0.05 then 1 / 1.5
  else if 0.05 < accfrac ∧ accfrac ≤ 0.10 then 1 / 1.2
  else if 0.10 < accfrac ∧ accfrac ≤ 0.15 then 1 / 1.1
  else if 0.15 < accfrac ∧ accfrac < 0.2 then 1 / 1.01
  else if 0.35 < accfrac ∧ accfrac ≤ 0.45 then 1.01
  else if 0.45 < accfrac ∧ accfrac ≤ 0.50 then 1.1
  else if 0.50 < accfrac ∧ accfrac ≤ 0.55 then 1.2
  else if 0.55 < accfrac ∧ accfrac ≤ 0.60 then 1.5
  else if 0.60 < accfrac then 2.0
  else rescale

/-- State carried through the Phase B joint rescaling loop of pre_tune
(BuiltinStepMethods.py lines 204-292), mirroring the Python locals:
i, nsuccess, rescale_factor, self.step_sizes, the in-place variable
values, current_values, the persistent current_logp, the interval array
tuning_chain, and the local accfrac. -/
structure TuneBState where
  i : ℕ
  nsuccess : ℕ
  rescaleFactor : ℝ
  stepSizes : List ℝ
  values : List ℝ
  currentValues : List ℝ
  currentLogp : ℝ
  tuningChain : List Bool
  accfrac : ℝ

/-- One pass of the else branch of the Phase B while loop
(BuiltinStepMethods.py lines 224-292): compute k = i % n, advance i,
reset all values to their original values at the start of an interval,
multiply every step size by rescale_factor at the start of an interval,
perturb every parameter, decide acceptance jointly with draw zs i,
restore every value on rejection, and at the end of an interval compute
the joint acceptance fraction and update nsuccess and rescale_factor:
inside the closed band from 0.2 to 0.35 the interval is a success and the
factor resets to 1.0, otherwise nsuccess resets to 0 and the factor comes
from the lookup table.  The oracle prop gives the value returned by the
proposal distribution at iteration i for parameter index idx and a given
sigma. -/
noncomputable def tuneBIter (n : ℕ) (logp : List ℝ → ℝ) (orig : List ℝ)
    (prop : ℕ → ℕ → ℝ → ℝ) (zs : ℕ → ℝ) (s : TuneBState) : TuneBState :=
  let k := s.i % n
  let values0 := if k = 0 then orig else s.values
  let stepSizes1 := if k = 0 then s.stepSizes.map (· * s.rescaleFactor)
    else s.stepSizes
  let values1 := (List.range values0.length).map
    (fun idx => values0.getD idx 0 + prop s.i idx (stepSizes1.getD idx 0))
  let new_logp := logp values1
  let acc := MetropolisHastings.decide s.currentLogp new_logp (zs s.i)
  let tuningChain1 := s.tuningChain.set k acc
  let values2 := if acc then values1 else s.currentValues
  let currentValues1 := if acc then values1 else s.currentValues
  let currentLogp1 := if acc then new_logp else s.currentLogp
  let accfrac1 :=
    if k = n - 1 then (countAccepted tuningChain1 : ℝ) / n else s.accfrac
  let nsuccess1 :=
    if k = n - 1 then
      if 0.2 ≤ accfrac1 ∧ accfrac1 ≤ 0.35 then s.nsuccess + 1 else 0
    else s.nsuccess
  let rescale1 :=
    if k = n - 1 then
      if 0.2 ≤ accfrac1 ∧ accfrac1 ≤ 0.35 then 1.0
      else updateRescaleFactor s.rescaleFactor accfrac1
    else s.rescaleFactor
  { i := s.i + 1, nsuccess := nsuccess1, rescaleFactor := rescale1,
    stepSizes := stepSizes1, values := values2,
    currentValues := currentValues1, currentLogp := currentLogp1,
    tuningChain := tuningChain1, accfrac := accfrac1 }

/-- The Phase B while loop (BuiltinStepMethods.py lines 211-292): while
i < m+1, break once nsuccess reaches nconsecutive, raise the
iteration-limit error when i = m, and otherwise run one joint tuning
iteration.  Fuel as in tuneALoop. -/
noncomputable def tuneBLoop (m n : ℕ) (logp : List ℝ → ℝ) (orig : List ℝ)
    (prop : ℕ → ℕ → ℝ → ℝ) (zs : ℕ → ℝ) :
    ℕ → TuneBState → Except String TuneBState
  | 0, _ => Except.error (tuneErrorMessage m)
  | fuel + 1, s =>
    if s.i < m + 1 then
      if s.nsuccess ≥ nconsecutive then
        Except.ok s
      else if s.i = m then
        Except.error (tuneErrorMessage m)
      else
        tuneBLoop m n logp orig prop zs fuel (tuneBIter n logp orig prop zs s)
    else
      Except.ok s

/-- Entry state of Phase B (BuiltinStepMethods.py lines 204-208): i = 0,
nsuccess = 0, rescale_factor = 1/sqrt(npars), the tuning chain an array of
n zeros, and current_logp evaluated at the values left by Phase A. -/
noncomputable def tuneBInit (n npars : ℕ) (logp : List ℝ → ℝ)
    (stepSizes values currentValues : List ℝ) : TuneBState :=
  { i := 0, nsuccess := 0, rescaleFactor := 1.0 / Real.sqrt npars,
    stepSizes := stepSizes, values := values,
    currentValues := currentValues, currentLogp := logp values,
    tuningChain := List.replicate n false, accfrac := 0 }

/-- At an interval end (i % n = n - 1) the Phase A iteration records as
accfrac the accepted count of the updated interval chain divided by n. -/
theorem tuneAIter_accfrac_at_interval_end (n j : ℕ) (logp : List ℝ → ℝ)
    (orig : List ℝ) (prop : ℕ → ℝ → ℝ) (zs : ℕ → ℝ) (s : TuneAState)
    (hk : s.i % n = n - 1) :
    (tuneAIter n j logp orig prop zs s).accfrac =
      (countAccepted (tuneAIter n j logp orig prop zs s).acceptedChain : ℝ) / n := by
  simp only [tuneAIter, hk, if_pos]

/-- At an interval end the Phase A iteration sets the consecutive-success
counter from the freshly computed acceptance fraction: increment inside the
band, reset to zero outside it. -/
theorem tuneAIter_nsuccess_at_interval_end (n j : ℕ) (logp : List ℝ → ℝ)
    (orig : List ℝ) (prop : ℕ → ℝ → ℝ) (zs : ℕ → ℝ) (s : TuneAState)
    (hk : s.i % n = n - 1) :
    (tuneAIter n j logp orig prop zs s).nsuccess =
      (if 0.2 ≤ (tuneAIter n j logp orig prop zs s).accfrac ∧
           (tuneAIter n j logp orig prop zs s).accfrac ≤ 0.40
       then s.nsuccess + 1 else 0) := by
  simp only [tuneAIter, hk, if_pos]

/-- C3: in Phase A, an interval is a success exactly when its acceptance
fraction (accepted count over the updated interval chain, divided by n)
lies in the closed band from 0.2 to 0.4: a success increments the
consecutive-success counter, a non-success resets it to 0; and once the
counter has reached nconsecutive = 5, the loop multiplies the parameter's
step size by the extra factor 0.3 and returns, moving on to the next
parameter. -/
theorem C3_phaseA_success_counter (m n j : ℕ) (logp : List ℝ → ℝ)
    (orig : List ℝ) (prop : ℕ → ℝ → ℝ) (zs : ℕ → ℝ)
    (s s' : TuneAState) (fuel : ℕ) :
    (s.i % n = n - 1 →
      (tuneAIter n j logp orig prop zs s).accfrac =
        (countAccepted (tuneAIter n j logp orig prop zs s).acceptedChain : ℝ) / n ∧
      (0.2 ≤ (tuneAIter n j logp orig prop zs s).accfrac ∧
          (tuneAIter n j logp orig prop zs s).accfrac ≤ 0.40 →
        (tuneAIter n j logp orig prop zs s).nsuccess = s.nsuccess + 1) ∧
      (¬ (0.2 ≤ (tuneAIter n j logp orig prop zs s).accfrac ∧
          (tuneAIter n j logp orig prop zs s).accfrac ≤ 0.40) →
        (tuneAIter n j logp orig prop zs s).nsuccess = 0)) ∧
    (s'.nsuccess ≥ nconsecutive → s'.i < m + 1 →
      tuneALoop m n j logp orig prop zs (fuel + 1) s' =
        Except.ok { s' with
          stepSizes := s'.stepSizes.set j ((s'.stepSizes.getD j 0) * 0.3) }) := by
  constructor
  · intro hk
    refine ⟨tuneAIter_accfrac_at_interval_end n j logp orig prop zs s hk,
            fun hband => ?_, fun hband => ?_⟩
    · rw [tuneAIter_nsuccess_at_interval_end n j logp orig prop zs s hk,
        if_pos hband]
    · rw [tuneAIter_nsuccess_at_interval_end n j logp orig prop zs s hk,
        if_neg hband]
  · intro hns hi
    simp only [tuneALoop, if_pos hi, if_pos hns]

/-- Witness for C3 at a concrete interval end and a concrete loop state. -/
theorem C3_phaseA_success_counter_witness :
    (tuneAIter 5 0 (fun _ => (0:ℝ)) [0] (fun _ _ => 0) (fun _ => 1/2)
        ⟨4, 0, [1], [0], [0], [false, false, false, false, false],
          [0, 0, 0, 0, 0], [0, 0, 0, 0, 0], 0⟩).nsuccess = 0 + 1 ∧
    tuneALoop 0 5 0 (fun _ => (0:ℝ)) [0] (fun _ _ => 0) (fun _ => 1/2) 1
        ⟨0, 5, [1], [0], [0], [false, false, false, false, false],
          [0, 0, 0, 0, 0], [0, 0, 0, 0, 0], 0⟩ =
      Except.ok { (⟨0, 5, [1], [0], [0], [false, false, false, false, false],
          [0, 0, 0, 0, 0], [0, 0, 0, 0, 0], 0⟩ : TuneAState) with
        stepSizes := List.set [1] 0 ((List.getD [1] 0 0) * 0.3) } := by
  have hacc : (tuneAIter 5 0 (fun _ => (0:ℝ)) [0] (fun _ _ => 0) (fun _ => 1/2)
      ⟨4, 0, [1], [0], [0], [false, false, false, false, false],
        [0, 0, 0, 0, 0], [0, 0, 0, 0, 0], 0⟩).accfrac = 1/5 := by
    norm_num [tuneAIter, MetropolisHastings.decide, countAccepted,
      Real.exp_zero, List.set]
  constructor
  · exact ((C3_phaseA_success_counter 0 5 0 (fun _ => (0:ℝ)) [0] (fun _ _ => 0)
      (fun _ => 1/2)
      ⟨4, 0, [1], [0], [0], [false, false, false, false, false],
        [0, 0, 0, 0, 0], [0, 0, 0, 0, 0], 0⟩
      ⟨0, 5, [1], [0], [0], [false, false, false, false, false],
        [0, 0, 0, 0, 0], [0, 0, 0, 0, 0], 0⟩ 0).1
      (by norm_num)).2.1 (by rw [hacc]; norm_num)
  · exact (C3_phaseA_success_counter 0 5 0 (fun _ => (0:ℝ)) [0] (fun _ _ => 0)
      (fun _ => 1/2)
      ⟨4, 0, [1], [0], [0], [false, false, false, false, false],
        [0, 0, 0, 0, 0], [0, 0, 0, 0, 0], 0⟩
      ⟨0, 5, [1], [0], [0], [false, false, false, false, false],
        [0, 0, 0, 0, 0], [0, 0, 0, 0, 0], 0⟩ 0).2
      (by norm_num [nconsecutive]) (by norm_num)

/-- C4: the Phase A interval adjustment at each boundary acceptance
fraction listed in the specification table picks the bucket the table
documents, reading each bound with the strictness the table states; the
fractions 0.20, 0.25 and 0.35 fall inside no multiplicative band and leave
the step size unchanged. -/
theorem C4_stepsize_table_boundaries (s : ℝ) :
    adjustStepSizeA s 0.01 = s / 5.0 ∧
    adjustStepSizeA s 0.05 = s / 2.0 ∧
    adjustStepSizeA s 0.10 = s / 1.5 ∧
    adjustStepSizeA s 0.15 = s / 1.2 ∧
    adjustStepSizeA s 0.20 = s ∧
    adjustStepSizeA s 0.25 = s ∧
    adjustStepSizeA s 0.35 = s ∧
    adjustStepSizeA s 0.40 = s * 1.01 ∧
    adjustStepSizeA s 0.45 = s * 1.1 ∧
    adjustStepSizeA s 0.50 = s * 1.2 ∧
    adjustStepSizeA s 0.55 = s * 1.5 ∧
    adjustStepSizeA s 0.60 = s * 2.0 := by
  refine ⟨?_, ?_, ?_, ?_, ?_, ?_, ?_, ?_, ?_, ?_, ?_, ?_⟩ <;>
    norm_num [adjustStepSizeA]

/-- At an interval end the Phase B iteration records as accfrac the
accepted count of the updated joint chain divided by n. -/
theorem tuneBIter_accfrac_at_interval_end (n : ℕ) (logp : List ℝ → ℝ)
    (orig : List ℝ) (prop : ℕ → ℕ → ℝ → ℝ) (zs : ℕ → ℝ) (s : TuneBState)
    (hk : s.i % n = n - 1) :
    (tuneBIter n logp orig prop zs s).accfrac =
      (countAccepted (tuneBIter n logp orig prop zs s).tuningChain : ℝ) / n := by
  simp only [tuneBIter, hk, if_pos]

/-- At an interval end the Phase B iteration updates nsuccess and the
rescale factor from the freshly computed joint acceptance fraction. -/
theorem tuneBIter_update_at_interval_end (n : ℕ) (logp : List ℝ → ℝ)
    (orig : List ℝ) (prop : ℕ → ℕ → ℝ → ℝ) (zs : ℕ → ℝ) (s : TuneBState)
    (hk : s.i % n = n - 1) :
    (tuneBIter n logp orig prop zs s).nsuccess =
      (if 0.2 ≤ (tuneBIter n logp orig prop zs s).accfrac ∧
           (tuneBIter n logp orig prop zs s).accfrac ≤ 0.35
       then s.nsuccess + 1 else 0) ∧
    (tuneBIter n logp orig prop zs s).rescaleFactor =
      (if 0.2 ≤ (tuneBIter n logp orig prop zs s).accfrac ∧
           (tuneBIter n logp orig prop zs s).accfrac ≤ 0.35
       then 1.0
       else updateRescaleFactor s.rescaleFactor
         (tuneBIter n logp orig prop zs s).accfrac) := by
  constructor <;> simp only [tuneBIter, hk, if_pos]

/-- C5: in Phase B the scalar rescale factor starts at 1/sqrt(npars); at
the start of every interval (i % n = 0) every step size is multiplied by
the current rescale factor; the success band for the joint acceptance
fraction is exactly the closed interval from 0.2 to 0.35 — a fraction
inside it increments the consecutive-success counter and resets the
rescale factor to exactly 1.0 rather than compounding, while a fraction
outside it is a non-success: the counter resets to 0 and the factor comes
from the lookup table instead. -/
theorem C5_phaseB_joint_rescaling (n npars : ℕ) (logp : List ℝ → ℝ)
    (stepSizes values currentValues orig : List ℝ)
    (prop : ℕ → ℕ → ℝ → ℝ) (zs : ℕ → ℝ) (s t : TuneBState) :
    (tuneBInit n npars logp stepSizes values currentValues).rescaleFactor =
      1.0 / Real.sqrt npars ∧
    (s.i % n = 0 →
      (tuneBIter n logp orig prop zs s).stepSizes =
        s.stepSizes.map (· * s.rescaleFactor)) ∧
    (t.i % n = n - 1 →
      0.2 ≤ (tuneBIter n logp orig prop zs t).accfrac ∧
        (tuneBIter n logp orig prop zs t).accfrac ≤ 0.35 →
      (tuneBIter n logp orig prop zs t).nsuccess = t.nsuccess + 1 ∧
        (tuneBIter n logp orig prop zs t).rescaleFactor = 1.0) ∧
    (t.i % n = n - 1 →
      ¬ (0.2 ≤ (tuneBIter n logp orig prop zs t).accfrac ∧
        (tuneBIter n logp orig prop zs t).accfrac ≤ 0.35) →
      (tuneBIter n logp orig prop zs t).nsuccess = 0 ∧
        (tuneBIter n logp orig prop zs t).rescaleFactor =
          updateRescaleFactor t.rescaleFactor
            (tuneBIter n logp orig prop zs t).accfrac) := by
  refine ⟨rfl, fun hk => ?_, fun hk hband => ?_, fun hk hband => ?_⟩
  · simp only [tuneBIter, hk, if_pos]
  · have h := tuneBIter_update_at_interval_end n logp orig prop zs t hk
    exact ⟨h.1.trans (if_pos hband), h.2.trans (if_pos hband)⟩
  · have h := tuneBIter_update_at_interval_end n logp orig prop zs t hk
    exact ⟨h.1.trans (if_neg hband), h.2.trans (if_neg hband)⟩

/-- Witness for C5 at concrete interval-start and interval-end states,
the latter once inside the success band (fraction 1/5 = 0.2) and once
outside it (fraction 1). -/
theorem C5_phaseB_joint_rescaling_witness :
    (tuneBInit 5 4 (fun _ => (0:ℝ)) [1, 1, 1, 1] [0, 0, 0, 0]
        [0, 0, 0, 0]).rescaleFactor = 1.0 / Real.sqrt 4 ∧
    (tuneBIter 5 (fun _ => (0:ℝ)) [0] (fun _ _ _ => 0) (fun _ => 1/2)
        ⟨0, 0, 1/2, [1], [0], [0], 0, [false, false, false, false, false],
          0⟩).stepSizes = List.map (· * (1/2)) [1] ∧
    (tuneBIter 5 (fun _ => (0:ℝ)) [0] (fun _ _ _ => 0) (fun _ => 1/2)
        ⟨4, 0, 1/2, [1], [0], [0], 0, [false, false, false, false, false],
          0⟩).nsuccess = 0 + 1 ∧
    (tuneBIter 5 (fun _ => (0:ℝ)) [0] (fun _ _ _ => 0) (fun _ => 1/2)
        ⟨4, 0, 1/2, [1], [0], [0], 0, [false, false, false, false, false],
          0⟩).rescaleFactor = 1.0 ∧
    (tuneBIter 5 (fun _ => (0:ℝ)) [0] (fun _ _ _ => 0) (fun _ => 1/2)
        ⟨4, 3, 1/2, [1], [0], [0], 0, [true, true, true, true, false],
          0⟩).nsuccess = 0 ∧
    (tuneBIter 5 (fun _ => (0:ℝ)) [0] (fun _ _ _ => 0) (fun _ => 1/2)
        ⟨4, 3, 1/2, [1], [0], [0], 0, [true, true, true, true, false],
          0⟩).rescaleFactor =
      updateRescaleFactor (1/2)
        (tuneBIter 5 (fun _ => (0:ℝ)) [0] (fun _ _ _ => 0) (fun _ => 1/2)
          ⟨4, 3, 1/2, [1], [0], [0], 0, [true, true, true, true, false],
            0⟩).accfrac := by
  have hacc : (tuneBIter 5 (fun _ => (0:ℝ)) [0] (fun _ _ _ => 0)
      (fun _ => 1/2)
      ⟨4, 0, 1/2, [1], [0], [0], 0, [false, false, false, false, false],
        0⟩).accfrac = 1/5 := by
    norm_num [tuneBIter, MetropolisHastings.decide, countAccepted,
      Real.exp_zero, List.set]
  have hacc2 : (tuneBIter 5 (fun _ => (0:ℝ)) [0] (fun _ _ _ => 0)
      (fun _ => 1/2)
      ⟨4, 3, 1/2, [1], [0], [0], 0, [true, true, true, true, false],
        0⟩).accfrac = 1 := by
    norm_num [tuneBIter, MetropolisHastings.decide, countAccepted,
      Real.exp_zero, List.set]
  have hband := (C5_phaseB_joint_rescaling 5 4 (fun _ => (0:ℝ)) [1, 1, 1, 1]
    [0, 0, 0, 0] [0, 0, 0, 0] [0] (fun _ _ _ => 0) (fun _ => 1/2)
    ⟨0, 0, 1/2, [1], [0], [0], 0, [false, false, false, false, false], 0⟩
    ⟨4, 0, 1/2, [1], [0], [0], 0, [false, false, false, false, false],
      0⟩).2.2.1 (by norm_num) (by rw [hacc]; norm_num)
  have hout := (C5_phaseB_joint_rescaling 5 4 (fun _ => (0:ℝ)) [1, 1, 1, 1]
    [0, 0, 0, 0] [0, 0, 0, 0] [0] (fun _ _ _ => 0) (fun _ => 1/2)
    ⟨0, 0, 1/2, [1], [0], [0], 0, [false, false, false, false, false], 0⟩
    ⟨4, 3, 1/2, [1], [0], [0], 0, [true, true, true, true, false],
      0⟩).2.2.2 (by norm_num) (by rw [hacc2]; norm_num)
  refine ⟨(C5_phaseB_joint_rescaling 5 4 (fun _ => (0:ℝ)) [1, 1, 1, 1]
      [0, 0, 0, 0] [0, 0, 0, 0] [0] (fun _ _ _ => 0) (fun _ => 1/2)
      ⟨0, 0, 1/2, [1], [0], [0], 0, [false, false, false, false, false], 0⟩
      ⟨4, 0, 1/2, [1], [0], [0], 0, [false, false, false, false, false],
        0⟩).1,
    (C5_phaseB_joint_rescaling 5 4 (fun _ => (0:ℝ)) [1, 1, 1, 1]
      [0, 0, 0, 0] [0, 0, 0, 0] [0] (fun _ _ _ => 0) (fun _ => 1/2)
      ⟨0, 0, 1/2, [1], [0], [0], 0, [false, false, false, false, false], 0⟩
      ⟨4, 0, 1/2, [1], [0], [0], 0, [false, false, false, false, false],
        0⟩).2.1 (by norm_num), hband.1, hband.2, hout.1, hout.2⟩

/-- C6: when a tuning phase reaches its iteration budget i = m without the
consecutive-success counter having reached nconsecutive, both the Phase A
and the Phase B loops raise the fatal error rather than returning a state,
and the error message names the exceeded limit m and suggests reducing
tune_interval. -/
theorem C6_tuning_limit_fatal (m n j : ℕ) (logp : List ℝ → ℝ)
    (orig : List ℝ) (propA : ℕ → ℝ → ℝ) (propB : ℕ → ℕ → ℝ → ℝ)
    (zs : ℕ → ℝ) (sA : TuneAState) (sB : TuneBState) (fuel : ℕ) :
    tuneErrorMessage m =
      ("Aborting tuning - exceeded " ++ toString m ++ " steps" ++
        "\n...consider reducing tune_interval") ∧
    (sA.nsuccess < nconsecutive → sA.i = m →
      tuneALoop m n j logp orig propA zs (fuel + 1) sA =
        Except.error (tuneErrorMessage m)) ∧
    (sB.nsuccess < nconsecutive → sB.i = m →
      tuneBLoop m n logp orig propB zs (fuel + 1) sB =
        Except.error (tuneErrorMessage m)) := by
  refine ⟨rfl, fun hns hm => ?_, fun hns hm => ?_⟩
  · simp only [tuneALoop]
    rw [if_pos (by omega), if_neg (not_le.mpr hns), if_pos hm]
  · simp only [tuneBLoop]
    rw [if_pos (by omega), if_neg (not_le.mpr hns), if_pos hm]

/-- Witness for C6 at concrete states that have exhausted the budget. -/
theorem C6_tuning_limit_fatal_witness :
    tuneALoop 0 5 0 (fun _ => (0:ℝ)) [0] (fun _ _ => 0) (fun _ => 1/2) 1
        ⟨0, 0, [1], [0], [0], [false], [0], [0], 0⟩ =
      Except.error (tuneErrorMessage 0) ∧
    tuneBLoop 0 5 (fun _ => (0:ℝ)) [0] (fun _ _ _ => 0) (fun _ => 1/2) 1
        ⟨0, 0, 1, [1], [0], [0], 0, [false], 0⟩ =
      Except.error (tuneErrorMessage 0) := by
  have h := C6_tuning_limit_fatal 0 5 0 (fun _ => (0:ℝ)) [0] (fun _ _ => 0)
    (fun _ _ _ => 0) (fun _ => 1/2)
    ⟨0, 0, [1], [0], [0], [false], [0], [0], 0⟩
    ⟨0, 0, 1, [1], [0], [0], 0, [false], 0⟩ 0
  exact ⟨h.2.1 (by norm_num [nconsecutive]) rfl,
         h.2.2 (by norm_num [nconsecutive]) rfl⟩

namespace Utils

/-- Chain produced by a sampling run (Utils.py, sample, lines 32-40):
per step, the recorded free-variable values (one entry per key), the
recorded current log probability, and the recorded 0/1 accepted flag. -/
structure SampleResult where
  chainValues : List (List ℝ)
  chainLogp : List ℝ
  chainAccepted : List Bool

/-- One iteration of the main sampling loop (Utils.py lines 72-84):
propose by adding the proposal draws delta to every value, evaluate the
new log probability, decide with draw z, and on acceptance adopt the new
values and log probability while on rejection restore every value from
current_values.  Returns the values as recorded into the chain, the new
current_values, the new current log probability, and the accepted flag. -/
noncomputable def sampleStep (logp : List ℝ → ℝ) (delta : List ℝ) (z : ℝ)
    (values currentValues : List ℝ) (current_logp : ℝ) :
    List ℝ × List ℝ × ℝ × Bool :=
  let values1 := values.zipWith (· + ·) delta
  let new_logp := logp values1
  let acc := MetropolisHastings.decide current_logp new_logp z
  if acc then (values1, values1, new_logp, acc)
  else (currentValues, currentValues, current_logp, acc)

/-- The main sampling loop of Utils.sample (Utils.py lines 68-84), with
rem iterations remaining and i the current step index.  The oracle prop
gives the proposal draws added at step i and zs the np.random.random draw
consumed by decide at step i. -/
noncomputable def sampleGo (logp : List ℝ → ℝ) (prop : ℕ → List ℝ)
    (zs : ℕ → ℝ) : ℕ → ℕ → List ℝ → List ℝ → ℝ → SampleResult
  | 0, _, _, _, _ => ⟨[], [], []⟩
  | rem + 1, i, values, currentValues, current_logp =>
    let step := sampleStep logp (prop i) (zs i) values currentValues current_logp
    let rest := sampleGo logp prop zs rem (i + 1) step.1 step.2.1 step.2.2.1
    ⟨step.1 :: rest.chainValues, step.2.2.1 :: rest.chainLogp,
      step.2.2.2 :: rest.chainAccepted⟩

/-- Utils.sample after the chain is allocated (Utils.py lines 42-84):
current_values start as the present free-variable values and the current
log probability is evaluated at them, then the main loop runs nsteps
times. -/
noncomputable def sample (logp : List ℝ → ℝ) (prop : ℕ → List ℝ)
    (zs : ℕ → ℝ) (nsteps : ℕ) (initValues : List ℝ) : SampleResult :=
  sampleGo logp prop zs nsteps 0 initValues initValues (logp initValues)

/-- The recorded series of the free variable at index k:
entry i is chain values of step i at position k. -/
def seriesOf (r : SampleResult) (k : ℕ) : List ℝ :=
  r.chainValues.map (fun v => v.getD k 0)

/-- Outcome of the tuning gate at the start of Utils.sample. -/
inductive TuningGateResult where
  | runPreTune : TuningGateResult
  | skipTuning : TuningGateResult
  | errorNoPreTuneMethod : TuningGateResult
  | errorIntervalUnset : TuningGateResult
deriving DecidableEq

/-- The tuning gate of Utils.sample (Utils.py lines 49-62): tuning runs
only when both ntune_iterlim and tune_interval are set; inside that
branch, a step method without a pre-tune operation is a ValueError, and a
second guard would raise a ValueError for an unset tune_interval; with
either argument unset the gate silently skips tuning. -/
def sampleTuningGate (hasPreTune : Bool)
    (ntune_iterlim tune_interval : Option ℕ) : TuningGateResult :=
  if ntune_iterlim ≠ none ∧ tune_interval ≠ none then
    if hasPreTune = false then TuningGateResult.errorNoPreTuneMethod
    else if tune_interval = none then TuningGateResult.errorIntervalUnset
    else TuningGateResult.runPreTune
  else TuningGateResult.skipTuning

end Utils

/-- The two value components produced by one sampling iteration coincide:
the values recorded into the chain equal the new current_values. -/
theorem sampleStep_fst_eq_snd (logp : List ℝ → ℝ) (delta : List ℝ) (z : ℝ)
    (values currentValues : List ℝ) (current_logp : ℝ) :
    (Utils.sampleStep logp delta z values currentValues current_logp).1 =
      (Utils.sampleStep logp delta z values currentValues current_logp).2.1 := by
  simp only [Utils.sampleStep]
  split <;> rfl

/-- A rejected sampling iteration records exactly the incoming
current_values. -/
theorem sampleStep_reject (logp : List ℝ → ℝ) (delta : List ℝ) (z : ℝ)
    (values currentValues : List ℝ) (current_logp : ℝ)
    (h : (Utils.sampleStep logp delta z values currentValues
      current_logp).2.2.2 = false) :
    (Utils.sampleStep logp delta z values currentValues current_logp).1 =
      currentValues := by
  simp only [Utils.sampleStep] at h ⊢
  split at h <;> simp_all [Utils.sampleStep]

/-- The three chain components of the sampling loop all have length rem. -/
theorem sampleGo_lengths (logp : List ℝ → ℝ) (prop : ℕ → List ℝ)
    (zs : ℕ → ℝ) (rem : ℕ) :
    ∀ (i : ℕ) (values currentValues : List ℝ) (current_logp : ℝ),
      (Utils.sampleGo logp prop zs rem i values currentValues
        current_logp).chainValues.length = rem ∧
      (Utils.sampleGo logp prop zs rem i values currentValues
        current_logp).chainLogp.length = rem ∧
      (Utils.sampleGo logp prop zs rem i values currentValues
        current_logp).chainAccepted.length = rem := by
  induction rem with
  | zero => intro i values cv lp; simp [Utils.sampleGo]
  | succ rem ih =>
    intro i values cv lp
    simp only [Utils.sampleGo, List.length_cons]
    have h := ih (i + 1)
      (Utils.sampleStep logp (prop i) (zs i) values cv lp).1
      (Utils.sampleStep logp (prop i) (zs i) values cv lp).2.1
      (Utils.sampleStep logp (prop i) (zs i) values cv lp).2.2.1
    exact ⟨by rw [h.1], by rw [h.2.1], by rw [h.2.2]⟩

/-- In the sampling loop, a rejected step records exactly the values
recorded at the previous step (the incoming current_values for the first
recorded step). -/
theorem sampleGo_reject_reproduces (logp : List ℝ → ℝ) (prop : ℕ → List ℝ)
    (zs : ℕ → ℝ) (rem : ℕ) :
    ∀ (i : ℕ) (values currentValues : List ℝ) (current_logp : ℝ) (idx : ℕ),
      idx < rem →
      (Utils.sampleGo logp prop zs rem i values currentValues
        current_logp).chainAccepted.getD idx false = false →
      (Utils.sampleGo logp prop zs rem i values currentValues
        current_logp).chainValues.getD idx [] =
        (if idx = 0 then currentValues else
          (Utils.sampleGo logp prop zs rem i values currentValues
            current_logp).chainValues.getD (idx - 1) []) := by
  induction rem with
  | zero => intro i values cv lp idx h; omega
  | succ rem ih =>
    intro i values cv lp idx hidx hrej
    simp only [Utils.sampleGo] at hrej ⊢
    match idx with
    | 0 =>
      simp only [List.getD_cons_zero] at hrej ⊢
      rw [if_pos trivial]
      exact sampleStep_reject logp (prop i) (zs i) values cv lp hrej
    | (j + 1) =>
      simp only [List.getD_cons_succ] at hrej ⊢
      rw [if_neg (Nat.succ_ne_zero j)]
      have hj1 : j + 1 - 1 = j := rfl
      rw [hj1]
      match j with
      | 0 =>
        have h0 := ih (i + 1)
          (Utils.sampleStep logp (prop i) (zs i) values cv lp).1
          (Utils.sampleStep logp (prop i) (zs i) values cv lp).2.1
          (Utils.sampleStep logp (prop i) (zs i) values cv lp).2.2.1
          0 (by omega) hrej
        rw [if_pos rfl] at h0
        rw [List.getD_cons_zero, h0, ← sampleStep_fst_eq_snd]
      | (j' + 1) =>
        have h0 := ih (i + 1)
          (Utils.sampleStep logp (prop i) (zs i) values cv lp).1
          (Utils.sampleStep logp (prop i) (zs i) values cv lp).2.1
          (Utils.sampleStep logp (prop i) (zs i) values cv lp).2.2.1
          (j' + 1) (by omega) hrej
        rw [if_neg (Nat.succ_ne_zero j')] at h0
        rw [List.getD_cons_succ, h0]
        simp

/-- C2 amended: after sample with nsteps = N every recorded sequence (the
series of each free variable, the log probabilities and the accepted
flags) has exactly length N, and every rejected step reproduces the
previous step's recorded values exactly (the initial values for step 0);
hence recorded values differing from the previous step's forces
accepted = 1 — but an accepted step need not change the values, so the
converse of the claim's iff fails. -/
theorem C2_chain_shape_amended (logp : List ℝ → ℝ) (prop : ℕ → List ℝ)
    (zs : ℕ → ℝ) (nsteps : ℕ) (initValues : List ℝ) :
    (Utils.sample logp prop zs nsteps initValues).chainLogp.length = nsteps ∧
    (Utils.sample logp prop zs nsteps initValues).chainAccepted.length =
      nsteps ∧
    (∀ k, (Utils.seriesOf (Utils.sample logp prop zs nsteps initValues)
      k).length = nsteps) ∧
    (∀ idx, idx < nsteps →
      (Utils.sample logp prop zs nsteps
        initValues).chainAccepted.getD idx false = false →
      (Utils.sample logp prop zs nsteps initValues).chainValues.getD idx [] =
        (if idx = 0 then initValues else
          (Utils.sample logp prop zs nsteps
            initValues).chainValues.getD (idx - 1) [])) := by
  have hlen := sampleGo_lengths logp prop zs nsteps 0 initValues initValues
    (logp initValues)
  refine ⟨hlen.2.1, hlen.2.2, fun k => ?_, fun idx hidx hrej => ?_⟩
  · simp only [Utils.seriesOf, List.length_map]
    exact hlen.1
  · exact sampleGo_reject_reproduces logp prop zs nsteps 0 initValues
      initValues (logp initValues) idx hidx hrej

/-- Witness for C2 amended: a one-step run whose proposal lowers the log
probability and whose uniform draw rejects it reproduces the initial
values. -/
theorem C2_chain_shape_amended_witness :
    (Utils.sample (fun v => v.getD 0 0) (fun _ => [-1]) (fun _ => 1) 1
      [0]).chainValues.getD 0 [] = [0] := by
  have hdec : MetropolisHastings.decide 0 (-1) 1 = false := by
    have h1 : ¬ ((-1:ℝ) - 0 > 0) := by norm_num
    have h2 : ¬ ((1:ℝ) ≤ Real.exp (-1 - 0)) := by
      rw [not_le, (by norm_num : (-1:ℝ) - 0 = -1)]
      exact Real.exp_lt_one_iff.mpr (by norm_num)
    simp only [MetropolisHastings.decide, if_neg h1, if_neg h2]
  have hrej : (Utils.sample (fun v => v.getD 0 0) (fun _ => [-1])
      (fun _ => 1) 1 [0]).chainAccepted.getD 0 false = false := by
    norm_num [Utils.sample, Utils.sampleGo, Utils.sampleStep,
      List.zipWith, hdec]
  have h := ((C2_chain_shape_amended (fun v => v.getD 0 0) (fun _ => [-1])
    (fun _ => 1) 1 [0]).2.2.2) 0 (by norm_num) hrej
  simpa using h

/-- Modelled from the claim's words, for comparison against the source
embedding: the accepted flag at every index equals 1 exactly when the
recorded values at that index differ from those at the previous index
(from the initial values for index 0). -/
def specAcceptedIffChanged (initValues : List ℝ)
    (r : Utils.SampleResult) : Prop :=
  ∀ idx, idx < r.chainValues.length →
    (r.chainAccepted.getD idx false = true ↔
      r.chainValues.getD idx [] ≠
        (if idx = 0 then initValues else r.chainValues.getD (idx - 1) []))

/-- C2 counterexample: a one-step run with a zero proposal draw and an
unchanged log probability is accepted, yet its recorded values equal the
initial values, so the claimed iff between acceptance and a change of
recorded values fails. -/
theorem C2_counterexample :
    (Utils.sample (fun _ => (0:ℝ)) (fun _ => [0]) (fun _ => 1/2) 1
      [0]).chainAccepted.getD 0 false = true ∧
    (Utils.sample (fun _ => (0:ℝ)) (fun _ => [0]) (fun _ => 1/2) 1
      [0]).chainValues.getD 0 [] = [0] ∧
    ¬ specAcceptedIffChanged [0]
      (Utils.sample (fun _ => (0:ℝ)) (fun _ => [0]) (fun _ => 1/2) 1 [0]) := by
  have hdec : MetropolisHastings.decide 0 0 (1/2) = true := by
    have h1 : ¬ ((0:ℝ) - 0 > 0) := by norm_num
    have h2 : (1:ℝ)/2 ≤ Real.exp (0 - 0) := by
      rw [(by norm_num : (0:ℝ) - 0 = 0), Real.exp_zero]
      norm_num
    simp only [MetropolisHastings.decide, if_neg h1, if_pos h2]
  have hrun : Utils.sample (fun _ => (0:ℝ)) (fun _ => [0]) (fun _ => 1/2) 1
      [0] = ⟨[[0]], [0], [true]⟩ := by
    norm_num [Utils.sample, Utils.sampleGo, Utils.sampleStep,
      List.zipWith, hdec]
  refine ⟨by rw [hrun]; rfl, by rw [hrun]; rfl, fun h => ?_⟩
  rw [hrun] at h
  have h0 := h 0 (by norm_num)
  simp at h0

/-- C10: the tuning gate of Utils.sample never reaches the branch that
would raise the unset-tune_interval error: with ntune_iterlim supplied and
tune_interval unset it silently skips tuning, and for every input the gate
produces one of the other three outcomes. -/
theorem C10_interval_unset_silently_skips :
    Utils.sampleTuningGate true (some 500) none =
      Utils.TuningGateResult.skipTuning ∧
    ∀ (h : Bool) (ni ti : Option ℕ),
      Utils.sampleTuningGate h ni ti = Utils.TuningGateResult.runPreTune ∨
      Utils.sampleTuningGate h ni ti = Utils.TuningGateResult.skipTuning ∨
      Utils.sampleTuningGate h ni ti =
        Utils.TuningGateResult.errorNoPreTuneMethod := by
  constructor
  · simp [Utils.sampleTuningGate]
  · intro h ni ti
    simp only [Utils.sampleTuningGate]
    split_ifs with h1 h2 h3
    · right; right; rfl
    · exact absurd h3 h1.2
    · left; rfl
    · right; left; rfl

/-- A node of the model's parent graph as consumed by trace_ancestries
(Utils.py lines 199-239): either a plain constant or deterministic value
(anything without the is_stochastic marker, treated as non-stochastic), or
a stochastic variable carrying its parents mapping.  The mapping is a
key-value list; Python 2 dicts carry no specified order. -/
inductive PNode : Type where
  | const : PNode
  | stoch : List (String × PNode) → PNode

/-- The duck-typed stochastic marker check of Utils.py lines 219-222:
reading parent.is_stochastic, with any failure treated as False. -/
def PNode.isStochastic : PNode → Bool
  | .const => false
  | .stoch _ => true

/-- The parents mapping of a node; a constant exposes none. -/
def PNode.parents : PNode → List (String × PNode)
  | .const => []
  | .stoch ps => ps

mutual

/-- Number of nodes in a parent tree, used as the termination measure of
the level traversal. -/
def nodeSize : PNode → ℕ
  | .const => 1
  | .stoch ps => 1 + levelSize ps

/-- Total node count of one level's entries. -/
def levelSize : List (String × PNode) → ℕ
  | [] => 0
  | p :: rest => nodeSize p.2 + levelSize rest

end

/-- Python dict assignment grandparents[key] = node (Utils.py line 229):
an existing entry with the same key is overwritten; since Python 2 dicts
have no specified order, the embedding determinizes by removing the old
entry and appending the new one. -/
def dictInsert (k : String) (v : PNode) (d : List (String × PNode)) :
    List (String × PNode) :=
  (d.filter (fun p => !(p.1 == k))) ++ [(k, v)]

/-- The inner loop of Utils.py lines 228-229: every parent of a stochastic
parent is assigned into the grandparents dict. -/
def insertParents (acc : List (String × PNode))
    (ps : List (String × PNode)) : List (String × PNode) :=
  ps.foldl (fun acc2 q => dictInsert q.1 q.2 acc2) acc

/-- One parent examined by the level loop of Utils.py lines 217-229: a
stochastic parent contributes its own parents to the grandparents dict, a
non-stochastic parent contributes nothing. -/
def collectStep (acc : List (String × PNode)) (p : String × PNode) :
    List (String × PNode) :=
  if p.2.isStochastic then insertParents acc p.2.parents else acc

/-- The grandparents dict built from one level of current parents
(Utils.py lines 213-229). -/
def collectGrandparents (current : List (String × PNode)) :
    List (String × PNode) :=
  current.foldl collectStep []

/-- Weight of the stochastic entries of a level: each stochastic parent
counts the size of its parents, each non-stochastic parent counts zero. -/
def stochWeight (l : List (String × PNode)) : ℕ :=
  (l.map (fun p => if p.2.isStochastic then levelSize p.2.parents else 0)).sum

theorem levelSize_append (l1 l2 : List (String × PNode)) :
    levelSize (l1 ++ l2) = levelSize l1 + levelSize l2 := by
  induction l1 with
  | nil => simp [levelSize]
  | cons p rest ih => simp [levelSize, ih]; ring

theorem levelSize_filter_le (f : String × PNode → Bool)
    (l : List (String × PNode)) : levelSize (l.filter f) ≤ levelSize l := by
  induction l with
  | nil => simp [levelSize]
  | cons p rest ih =>
    by_cases h : f p
    · rw [List.filter_cons_of_pos h]
      simp only [levelSize]
      omega
    · rw [List.filter_cons_of_neg h]
      simp only [levelSize]
      omega

theorem levelSize_dictInsert_le (k : String) (v : PNode)
    (d : List (String × PNode)) :
    levelSize (dictInsert k v d) ≤ levelSize d + nodeSize v := by
  rw [dictInsert, levelSize_append]
  have := levelSize_filter_le (fun p => !(p.1 == k)) d
  simp only [levelSize]
  omega

theorem levelSize_insertParents_le (ps : List (String × PNode)) :
    ∀ acc, levelSize (insertParents acc ps) ≤ levelSize acc + levelSize ps := by
  induction ps with
  | nil => intro acc; simp [insertParents, levelSize]
  | cons q rest ih =>
    intro acc
    rw [insertParents, List.foldl_cons]
    have h1 := ih (dictInsert q.1 q.2 acc)
    have h2 := levelSize_dictInsert_le q.1 q.2 acc
    rw [insertParents] at h1
    simp only [levelSize]
    omega

theorem nodeSize_pos (v : PNode) : 1 ≤ nodeSize v := by
  cases v with
  | const => simp [nodeSize]
  | stoch ps => simp only [nodeSize]; omega

theorem stochWeight_le_levelSize (l : List (String × PNode)) :
    stochWeight l ≤ levelSize l := by
  induction l with
  | nil => simp [stochWeight, levelSize]
  | cons p rest ih =>
    simp only [stochWeight, levelSize, List.map_cons, List.sum_cons] at ih ⊢
    have hp : (if p.2.isStochastic then levelSize p.2.parents else 0) <
        nodeSize p.2 := by
      cases h2 : p.2 with
      | const => simp [PNode.isStochastic, nodeSize]
      | stoch ps => simp [PNode.isStochastic, PNode.parents, nodeSize]
    omega

theorem stochWeight_lt_levelSize (l : List (String × PNode)) (h : l ≠ []) :
    stochWeight l < levelSize l := by
  cases l with
  | nil => exact absurd rfl h
  | cons p rest =>
    simp only [stochWeight, levelSize, List.map_cons, List.sum_cons]
    have hp : (if p.2.isStochastic then levelSize p.2.parents else 0) <
        nodeSize p.2 := by
      cases h2 : p.2 with
      | const => simp [PNode.isStochastic, nodeSize]
      | stoch ps => simp [PNode.isStochastic, PNode.parents, nodeSize]
    have := stochWeight_le_levelSize rest
    simp only [stochWeight] at this
    omega

theorem levelSize_foldl_collectStep_le (l : List (String × PNode)) :
    ∀ acc, levelSize (l.foldl collectStep acc) ≤
      levelSize acc + stochWeight l := by
  induction l with
  | nil => intro acc; simp [stochWeight]
  | cons p rest ih =>
    intro acc
    rw [List.foldl_cons]
    have h1 := ih (collectStep acc p)
    have h2 : levelSize (collectStep acc p) ≤
        levelSize acc + (if p.2.isStochastic then levelSize p.2.parents
          else 0) := by
      rw [collectStep]
      by_cases hs : p.2.isStochastic
      · rw [if_pos hs, if_pos hs]
        exact levelSize_insertParents_le p.2.parents acc
      · rw [if_neg hs, if_neg hs]
        omega
    simp only [stochWeight, List.map_cons, List.sum_cons] at h1 ⊢
    omega

theorem levelSize_collectGrandparents_lt (current : List (String × PNode))
    (h : current ≠ []) :
    levelSize (collectGrandparents current) < levelSize current := by
  have h1 := levelSize_foldl_collectStep_le current []
  rw [collectGrandparents]
  have h2 := stochWeight_lt_levelSize current h
  simp only [levelSize] at h1
  omega

/-- The while loop of trace_ancestries for one free variable
(Utils.py lines 211-235), with counter the number of levels climbed so
far.  Each pass records for every current parent whether it is stochastic,
builds the grandparents dict from the stochastic parents, and increments
the counter; the loop stops when no current parent is stochastic.  An
empty current level makes Python's max() of an empty sequence raise a
ValueError, modelled as none. -/
def traceLoop (current : List (String × PNode)) (counter : ℕ) : Option ℕ :=
  if current.isEmpty then none
  else if current.all (fun p => !p.2.isStochastic) then some (counter + 1)
  else traceLoop (collectGrandparents current) (counter + 1)
termination_by levelSize current
decreasing_by
  rename_i hne _hstoch
  exact levelSize_collectGrandparents_lt current (fun hc => hne (by simp [hc]))

/-- The ancestry depth computed by trace_ancestries for one free variable
(Utils.py lines 203-236): the counter starts at 0 and the first level is
the variable's own parents. -/
def traceAncestry (v : PNode) : Option ℕ :=
  traceLoop v.parents 0

/-- trace_ancestries over the whole free-variable mapping
(Utils.py lines 199-239). -/
def trace_ancestries (free : List (String × PNode)) :
    List (String × Option ℕ) :=
  free.map (fun s => (s.1, traceAncestry s.2))

mutual

/-- Wellformedness condition used by the amended resolver guarantee:
every stochastic node of a parent tree has a nonempty parents mapping. -/
def stochHasParents : PNode → Bool
  | .const => true
  | .stoch ps => !ps.isEmpty && levelAllGood ps

/-- All entries of a level satisfy stochHasParents. -/
def levelAllGood : List (String × PNode) → Bool
  | [] => true
  | p :: rest => stochHasParents p.2 && levelAllGood rest

end

theorem levelAllGood_iff (l : List (String × PNode)) :
    levelAllGood l = true ↔ ∀ q ∈ l, stochHasParents q.2 = true := by
  induction l with
  | nil => simp [levelAllGood]
  | cons p rest ih =>
    simp [levelAllGood, Bool.and_eq_true, ih, List.forall_mem_cons]

theorem mem_dictInsert (q : String × PNode) (k : String) (v : PNode)
    (d : List (String × PNode)) (h : q ∈ dictInsert k v d) :
    q = (k, v) ∨ q ∈ d := by
  rw [dictInsert] at h
  rcases List.mem_append.mp h with h1 | h1
  · exact Or.inr (List.mem_of_mem_filter h1)
  · simp only [List.mem_singleton] at h1
    exact Or.inl h1

theorem mem_insertParents (ps : List (String × PNode)) :
    ∀ acc q, q ∈ insertParents acc ps → q ∈ acc ∨ q ∈ ps := by
  induction ps with
  | nil =>
    intro acc q h
    rw [insertParents, List.foldl_nil] at h
    exact Or.inl h
  | cons r rest ih =>
    intro acc q h
    rw [insertParents, List.foldl_cons] at h
    rcases ih (dictInsert r.1 r.2 acc) q h with h1 | h1
    · rcases mem_dictInsert q r.1 r.2 acc h1 with h2 | h2
      · right
        rw [h2]
        exact List.mem_cons_self r rest
      · exact Or.inl h2
    · exact Or.inr (List.mem_cons_of_mem r h1)

theorem mem_foldl_collectStep (l : List (String × PNode)) :
    ∀ acc q, q ∈ l.foldl collectStep acc →
      q ∈ acc ∨ ∃ p ∈ l, p.2.isStochastic = true ∧ q ∈ p.2.parents := by
  induction l with
  | nil =>
    intro acc q h
    rw [List.foldl_nil] at h
    exact Or.inl h
  | cons c rest ih =>
    intro acc q h
    rw [List.foldl_cons] at h
    rcases ih (collectStep acc c) q h with h1 | ⟨p, hp, hps, hq⟩
    · rw [collectStep] at h1
      by_cases hs : c.2.isStochastic
      · rw [if_pos hs] at h1
        rcases mem_insertParents c.2.parents acc q h1 with h2 | h2
        · exact Or.inl h2
        · exact Or.inr ⟨c, List.mem_cons_self c rest, hs, h2⟩
      · rw [if_neg hs] at h1
        exact Or.inl h1
    · exact Or.inr ⟨p, List.mem_cons_of_mem c hp, hps, hq⟩

theorem dictInsert_ne_nil (k : String) (v : PNode)
    (d : List (String × PNode)) : dictInsert k v d ≠ [] := by
  simp [dictInsert]

theorem insertParents_ne_nil_of_acc (ps : List (String × PNode)) :
    ∀ acc, acc ≠ [] → insertParents acc ps ≠ [] := by
  induction ps with
  | nil =>
    intro acc h
    rw [insertParents, List.foldl_nil]
    exact h
  | cons q rest ih =>
    intro acc _
    rw [insertParents, List.foldl_cons]
    exact ih (dictInsert q.1 q.2 acc) (dictInsert_ne_nil q.1 q.2 acc)

theorem insertParents_ne_nil_of_ps (ps : List (String × PNode))
    (acc : List (String × PNode)) (h : ps ≠ []) :
    insertParents acc ps ≠ [] := by
  cases ps with
  | nil => exact absurd rfl h
  | cons q rest =>
    rw [insertParents, List.foldl_cons]
    exact insertParents_ne_nil_of_acc rest (dictInsert q.1 q.2 acc)
      (dictInsert_ne_nil q.1 q.2 acc)

theorem foldl_collectStep_ne_nil (l : List (String × PNode)) :
    ∀ acc, (acc ≠ [] ∨ ∃ p ∈ l, p.2.isStochastic = true ∧ p.2.parents ≠ []) →
      l.foldl collectStep acc ≠ [] := by
  induction l with
  | nil =>
    intro acc h
    rw [List.foldl_nil]
    rcases h with h | ⟨p, hp, _⟩
    · exact h
    · exact absurd hp (List.not_mem_nil p)
  | cons c rest ih =>
    intro acc h
    rw [List.foldl_cons]
    apply ih
    rcases h with h | ⟨p, hp, hps, hpar⟩
    · left
      rw [collectStep]
      by_cases hs : c.2.isStochastic
      · rw [if_pos hs]
        exact insertParents_ne_nil_of_acc c.2.parents acc h
      · rw [if_neg hs]
        exact h
    · rcases List.mem_cons.mp hp with rfl | hp2
      · left
        rw [collectStep, if_pos hps]
        exact insertParents_ne_nil_of_ps p.2.parents acc hpar
      · exact Or.inr ⟨p, hp2, hps, hpar⟩

/-- Totality of the level traversal on wellformed nonempty levels: the
loop returns a depth strictly above the incoming counter. -/
theorem traceLoop_total (N : ℕ) :
    ∀ current : List (String × PNode), levelSize current ≤ N →
      current ≠ [] → levelAllGood current = true →
      ∀ counter, ∃ d, traceLoop current counter = some d ∧ counter < d := by
  induction N with
  | zero =>
    intro current hsz hne _ _
    cases current with
    | nil => exact absurd rfl hne
    | cons p rest =>
      have := nodeSize_pos p.2
      simp only [levelSize] at hsz
      omega
  | succ N ih =>
    intro current hsz hne hgood counter
    rw [traceLoop]
    have hie : current.isEmpty = false := by
      cases current with
      | nil => exact absurd rfl hne
      | cons p rest => rfl
    simp only [hie, Bool.false_eq_true, if_false]
    by_cases hall : current.all (fun p => !p.2.isStochastic) = true
    · rw [if_pos hall]
      exact ⟨counter + 1, rfl, Nat.lt_succ_self counter⟩
    · rw [if_neg hall]
      have hex : ∃ p ∈ current, p.2.isStochastic = true := by
        rw [List.all_eq_true] at hall
        push_neg at hall
        obtain ⟨p, hp, hb⟩ := hall
        exact ⟨p, hp, by simpa using hb⟩
      obtain ⟨p, hp, hps⟩ := hex
      have hppar : p.2.parents ≠ [] := by
        have hq := (levelAllGood_iff current).mp hgood p hp
        cases h2 : p.2 with
        | const =>
          rw [h2] at hps
          simp [PNode.isStochastic] at hps
        | stoch ps =>
          rw [h2] at hq
          simp only [stochHasParents, Bool.and_eq_true] at hq
          simp only [PNode.parents]
          intro hnil
          rw [hnil] at hq
          simp at hq
      have hne2 : collectGrandparents current ≠ [] :=
        foldl_collectStep_ne_nil current [] (Or.inr ⟨p, hp, hps, hppar⟩)
      have hgood2 : levelAllGood (collectGrandparents current) = true := by
        rw [levelAllGood_iff]
        intro q hq
        rcases mem_foldl_collectStep current [] q hq with h1 | ⟨r, hr, hrs, hqr⟩
        · exact absurd h1 (List.not_mem_nil q)
        · have hrg := (levelAllGood_iff current).mp hgood r hr
          cases h2 : r.2 with
          | const =>
            rw [h2] at hrs
            simp [PNode.isStochastic] at hrs
          | stoch ps =>
            rw [h2] at hrg hqr
            simp only [stochHasParents, Bool.and_eq_true] at hrg
            simp only [PNode.parents] at hqr
            exact (levelAllGood_iff ps).mp hrg.2 q hqr
      have hsz2 : levelSize (collectGrandparents current) ≤ N := by
        have := levelSize_collectGrandparents_lt current hne
        omega
      obtain ⟨d, hd, hcd⟩ := ih (collectGrandparents current) hsz2 hne2
        hgood2 (counter + 1)
      exact ⟨d, hd, by omega⟩

/-- Concrete chain of stochastic nodes: A has a single constant parent,
B depends stochastically on A, C on B. -/
def nodeA : PNode := PNode.stoch [("mu", PNode.const)]

def nodeB : PNode := PNode.stoch [("a", nodeA)]

def nodeC : PNode := PNode.stoch [("b", nodeB)]

/-- A node with two constant parents, used as a witness input. -/
def nodeD : PNode := PNode.stoch [("x", PNode.const), ("y", PNode.const)]

/-- C7 counterexample: a free variable with an empty parents mapping has
no stochastic parent, yet the resolver assigns it no depth at all (the
max() of an empty sequence raises, modelled as none), rather than the
depth 1 the claim assigns to every variable without stochastic parents. -/
theorem C7_counterexample :
    (traceAncestry (PNode.stoch [])).isSome = false := by
  rw [traceAncestry, traceLoop]
  simp [PNode.parents]

/-- C7 amended: a free variable whose nonempty parents mapping contains
no stochastic node gets ancestry depth 1, and along the chain A, B, C
(each depending stochastically on the previous, with A rooted in a
constant) the resolver yields depths 1, 2 and 3; a variable with an empty
parents mapping raises an error instead. -/
theorem C7_ancestry_depths :
    (∀ v : PNode, v.parents ≠ [] →
      (∀ p ∈ v.parents, p.2.isStochastic = false) →
      traceAncestry v = some 1) ∧
    traceAncestry nodeA = some 1 ∧
    traceAncestry nodeB = some 2 ∧
    traceAncestry nodeC = some 3 := by
  refine ⟨fun v hne hnp => ?_, ?_, ?_, ?_⟩
  · rw [traceAncestry, traceLoop]
    have hie : v.parents.isEmpty = false := by
      cases hv : v.parents with
      | nil => exact absurd hv hne
      | cons p rest => rfl
    have hall : v.parents.all (fun p => !p.2.isStochastic) = true := by
      rw [List.all_eq_true]
      intro p hp
      simp [hnp p hp]
    simp [hie, hall]
  · simp [traceAncestry, traceLoop, nodeA, PNode.parents, PNode.isStochastic]
  · simp [traceAncestry, traceLoop, nodeB, nodeA, PNode.parents,
      PNode.isStochastic, collectGrandparents, collectStep, insertParents,
      dictInsert]
  · simp [traceAncestry, traceLoop, nodeC, nodeB, nodeA, PNode.parents,
      PNode.isStochastic, collectGrandparents, collectStep, insertParents,
      dictInsert]

/-- Witness for C7 on a node with two constant parents. -/
theorem C7_ancestry_depths_witness : traceAncestry nodeD = some 1 := by
  refine C7_ancestry_depths.1 nodeD (by simp [nodeD, PNode.parents]) ?_
  intro p hp
  simp only [nodeD, PNode.parents] at hp
  rcases List.mem_cons.mp hp with rfl | hp2
  · rfl
  · rcases List.mem_cons.mp hp2 with rfl | hp3
    · rfl
    · exact absurd hp3 (List.not_mem_nil p)

/-- C8 counterexample: a free variable with an empty parents mapping makes
the resolver take max() of an empty sequence, which raises a ValueError
(modelled as none) instead of producing a depth, so the resolver does have
a failure mode on an acyclic graph. -/
theorem C8_counterexample : traceAncestry (PNode.stoch []) = none := by
  rw [traceAncestry, traceLoop]
  simp [PNode.parents]

/-- C8 amended: the resolver always terminates on the acyclic parent
graphs of the model (the embedding's parent trees), and it produces a
depth of at least 1 for every free variable whose parents mapping is
nonempty and whose stochastic ancestors all have nonempty parents
mappings; a free variable whose traversal reaches an empty level instead
raises an error. -/
theorem C8_resolver_amended (v : PNode) (hne : v.parents ≠ [])
    (hgood : levelAllGood v.parents = true) :
    ∃ d, traceAncestry v = some d ∧ 1 ≤ d := by
  obtain ⟨d, hd, hlt⟩ := traceLoop_total (levelSize v.parents) v.parents
    le_rfl hne hgood 0
  exact ⟨d, hd, by omega⟩

/-- Witness for C8 amended at the concrete chain node C. -/
theorem C8_resolver_amended_witness :
    ∃ d, traceAncestry nodeC = some d ∧ 1 ≤ d := by
  refine C8_resolver_amended nodeC (by simp [nodeC, PNode.parents]) ?_
  simp [nodeC, nodeB, nodeA, PNode.parents, levelAllGood, stochHasParents]

/-- Default key used when indexing past the end of a key list. -/
def emptyKey : String := ""

/-- Processing order of the free-variable keys in pre_tune's Phase A
(BuiltinStepMethods.py lines 64 and 94-98): for j in range(npars) the
parameter tuned in round j is keys[j]; the ancestry mapping is never
consulted by pre_tune. -/
def preTuneParamOrder (keys : List String) : List String :=
  (List.range keys.length).map (fun j => keys.getD j emptyKey)

/-- Processing order of the free-variable keys in random_draw_from_Model
(Utils.py lines 99-110): the keys are reordered by np.argsort of their
ancestry depths and drawn in that order; argsort is modelled as sorting
the keys by depth (the source leaves the order of equal depths to
np.argsort). -/
def randomDrawOrder (keys : List String) (ancestries : String → ℕ) :
    List String :=
  keys.mergeSort (fun a b => decide (ancestries a ≤ ancestries b))

/-- C9 amended: random_draw_from_Model processes the free variables in
nondecreasing ancestry depth, but pre_tune processes them in the raw key
order of the free-variable mapping, never consulting the ancestry
mapping. -/
theorem C9_processing_order_amended (keys : List String)
    (ancestries : String → ℕ) :
    preTuneParamOrder keys = keys ∧
    List.Pairwise (fun a b => ancestries a ≤ ancestries b)
      (randomDrawOrder keys ancestries) := by
  constructor
  · induction keys with
    | nil => rfl
    | cons k ks ih =>
      simp only [preTuneParamOrder, List.length_cons, List.range_succ_eq_map,
        List.map_cons, List.map_map, List.getD_cons_zero, List.cons.injEq,
        true_and, Function.comp]
      simpa only [List.getD_cons_succ] using ih
  · have htrans : ∀ a b c : String,
        (decide (ancestries a ≤ ancestries b)) = true →
        (decide (ancestries b ≤ ancestries c)) = true →
        (decide (ancestries a ≤ ancestries c)) = true := by
      intro a b c hab hbc
      simp only [decide_eq_true_eq] at hab hbc ⊢
      omega
    have htotal : ∀ a b : String,
        ((decide (ancestries a ≤ ancestries b)) ||
          (decide (ancestries b ≤ ancestries a))) = true := by
      intro a b
      simp only [Bool.or_eq_true, decide_eq_true_eq]
      omega
    have h := List.sorted_mergeSort htrans htotal keys
    exact h.imp (fun hab => by simpa using hab)

/-- Key names used by the ordering counterexample. -/
def keyC : String := "C"

def keyA : String := "A"

/-- Key list with C listed before A. -/
def keysCA : List String := [keyC, keyA]

/-- Ancestry depths for the ordering counterexample: C at depth 2, every
other key at depth 1. -/
def ancCA : String → ℕ := fun k => if k = keyC then 2 else 1

/-- C9 counterexample: with the free-variable keys listed as C then A and
ancestry depths 2 for C and 1 for A, pre_tune tunes C before A — the
depth sequence 2, 1 is not nondecreasing, because pre_tune iterates the
keys as listed and never consults the ancestry mapping. -/
theorem C9_counterexample :
    preTuneParamOrder keysCA = keysCA ∧
    keysCA.map ancCA = [2, 1] ∧
    ¬ List.Pairwise (fun a b => ancCA a ≤ ancCA b)
      (preTuneParamOrder keysCA) := by
  refine ⟨by decide, by decide, fun h => ?_⟩
  have hlist : preTuneParamOrder keysCA = keyC :: [keyA] := by decide
  rw [hlist] at h
  have h2 := (List.pairwise_cons.mp h).1 keyA (List.mem_cons_self keyA [])
  revert h2
  decide

/-- C1: decide accepts unconditionally when beta = new_logp - current_logp > 0;
otherwise it accepts exactly when the uniform draw z satisfies z ≤ exp beta;
in particular for new_logp = current_logp it accepts for every draw z < 1,
because exp 0 = 1. -/
theorem C1_decide_accept_rule (current_logp new_logp z : ℝ) :
    (new_logp - current_logp > 0 →
      MetropolisHastings.decide current_logp new_logp z = true) ∧
    (¬ new_logp - current_logp > 0 →
      (MetropolisHastings.decide current_logp new_logp z = true ↔
        z ≤ Real.exp (new_logp - current_logp))) ∧
    (new_logp = current_logp → z < 1 →
      MetropolisHastings.decide current_logp new_logp z = true) := by
  refine ⟨fun h => ?_, fun h => ?_, fun he hz => ?_⟩
  · simp [MetropolisHastings.decide, h]
  · simp only [MetropolisHastings.decide, if_neg h]
    split <;> simp_all
  · subst he
    simp [MetropolisHastings.decide, Real.exp_zero, hz.le]

/-- Witness for C1 at concrete inputs. -/
theorem C1_decide_accept_rule_witness :
    MetropolisHastings.decide 0 1 (1/2) = true ∧
    MetropolisHastings.decide 0 0 (1/2) = true := by
  exact ⟨(C1_decide_accept_rule 0 1 (1/2)).1 (by norm_num),
         (C1_decide_accept_rule 0 0 (1/2)).2.2 rfl (by norm_num)⟩
